import Mathlib

/-!
# Verification of the 1-D periodic heat-equation kernels in `src/heat.c`

The repository implements an explicit Forward-Euler solver for the 1-D heat
equation on a periodic grid, in two variants:

* `heat_serial(u, dx, Nx, dt, Nt)` advances a full grid of `Nx` points;
* `heat_parallel(uk, dx, Nx, dt, Nt, comm)` advances one process's slice of a
  global grid, exchanging the two edge values with the ring neighbours via MPI
  each step.

We embed the buffers as `List ℚ` (the field values at grid points `0..Nx-1`).
The claims under verification are exact arithmetic identities whose C
expressions are identical operand-for-operand, so the rational model faithfully
captures the value-level behaviour; all the concrete scenario values are dyadic
rationals on which double arithmetic is exact.

The C kernels copy the caller's buffer into scratch `ut`, iterate the Euler
step `Nt` times using an O(1) pointer swap to rotate `ut`/`utp1`, and copy the
final `ut` back; functionally this is `Nt`-fold iteration of a single-step
function, which is how we embed it.  The MPI exchange in `heat_parallel` is
deterministic at the value level: each step, the left-ghost receive of rank `r`
delivers `current[Nx-1]` of rank `(r-1+P) % P` and the right-ghost receive
delivers `current[0]` of rank `(r+1) % P` of the same step (one message per
direction per neighbour per step, matched by MPI's pairwise non-overtaking
order; the `MPI_Wait`s only protect buffer reuse).  We therefore model the
parallel run as the synchronous lock-step evolution of the list of all `P`
slices.
-/

namespace Heat

/-- Model of array_copy (heat.c lines 23–27): it copies `length` doubles; on the list
model, where the buffer is the value, it is the identity. -/
def array_copy (fromarray : List ℚ) : List ℚ := fromarray

/-- Definition of the three-point Forward-Euler stencil expression
`b + nu*(a - 2*b + c)` shared verbatim by every update in heat.c
(lines 52, 56, 57, 136, 144, 149): `a` is the left operand, `b` the centre,
`c` the right operand. -/
def stencil (nu a b c : ℚ) : ℚ := b + nu * (a - 2 * b + c)

/-- One Forward-Euler step of `heat_serial` (heat.c lines 48–68): interior
points `1 ≤ i ≤ Nx-2` read `ut[i-1], ut[i], ut[i+1]`; the periodic edges read
`ut[Nx-1], ut[0], ut[1]` (index 0, line 56) and `ut[Nx-2], ut[Nx-1], ut[0]`
(index `Nx-1`, line 57).  The C code writes the interior first and the two
edges afterwards; for `Nx ≥ 2` the three index sets are disjoint, so the step
is the per-index function below.  `Nx` is the buffer length.  Every update
reads only `ut` and writes only the fresh output list. -/
def heat_step (nu : ℚ) (ut : List ℚ) : List ℚ :=
  (List.range ut.length).map fun i =>
    if i = 0 then
      stencil nu (ut.getD (ut.length - 1) 0) (ut.getD 0 0) (ut.getD 1 0)
    else if i = ut.length - 1 then
      stencil nu (ut.getD (ut.length - 2) 0) (ut.getD (ut.length - 1) 0) (ut.getD 0 0)
    else
      stencil nu (ut.getD (i - 1) 0) (ut.getD i 0) (ut.getD (i + 1) 0)

/-- Model of heat_serial (heat.c lines 34–79): copy `u` into scratch, set
`nu = dt/(dx*dx)` (line 45), iterate the Euler step `Nt` times rotating the two
scratch buffers, and copy the result back into `u`.  The buffer length stands
for the `Nx` argument. -/
def heat_serial (u : List ℚ) (dx dt : ℚ) (Nt : ℕ) : List ℚ :=
  array_copy ((heat_step (dt / (dx * dx)))^[Nt] (array_copy u))

/-- The left ring neighbour `(rank-1+size) % size` (heat.c line 111). -/
def left_proc (size rank : ℕ) : ℕ := (rank + size - 1) % size

/-- The right ring neighbour `(rank+1) % size` (heat.c line 112). -/
def right_proc (size rank : ℕ) : ℕ := (rank + 1) % size

/-- One step of `heat_parallel` on one rank's slice, given the two ghost
values delivered by the neighbours (heat.c lines 124–154): the interior is the
same stencil as the serial kernel (line 136); index `Nx-1` reads
`ukt[Nx-2], ukt[Nx-1], right_ghost` (line 144); index `0` reads
`left_ghost, ukt[0], ukt[1]` (line 149).  For `Nx ≥ 2` the writes are
disjoint, so the step is the per-index function below. -/
def heat_parallel_rank_step (nu lg rg : ℚ) (ukt : List ℚ) : List ℚ :=
  (List.range ukt.length).map fun i =>
    if i = 0 then
      stencil nu lg (ukt.getD 0 0) (ukt.getD 1 0)
    else if i = ukt.length - 1 then
      stencil nu (ukt.getD (ukt.length - 2) 0) (ukt.getD (ukt.length - 1) 0) rg
    else
      stencil nu (ukt.getD (i - 1) 0) (ukt.getD i 0) (ukt.getD (i + 1) 0)

/-- One synchronous global step of the `P`-rank ring: every rank executes the
loop body of heat.c lines 113–161 once; rank `r`'s left-ghost receive delivers
the last entry of rank `left_proc P r`'s current slice (that neighbour's
`right_ghost[0] = ukt[Nx-1]`, line 126/132) and its right-ghost receive
delivers the first entry of rank `right_proc P r`'s current slice (that
neighbour's `left_ghost[0] = ukt[0]`, line 125/131). -/
def heat_parallel_step (nu : ℚ) (slices : List (List ℚ)) : List (List ℚ) :=
  (List.range slices.length).map fun r =>
    heat_parallel_rank_step nu
      ((slices.getD (left_proc slices.length r) []).getD
        ((slices.getD (left_proc slices.length r) []).length - 1) 0)
      ((slices.getD (right_proc slices.length r) []).getD 0 0)
      (slices.getD r [])

/-- Model of heat_parallel (heat.c lines 84–173) run on all `P` ranks of the ring at
once: each rank copies its slice `uk` into scratch (line 101), sets
`nu = dt/(dx*dx)` (line 104), iterates the exchanged-and-stencilled step `Nt`
times, and copies its slice back (line 168). -/
def heat_parallel (slices : List (List ℚ)) (dx dt : ℚ) (Nt : ℕ) : List (List ℚ) :=
  (heat_parallel_step (dt / (dx * dx)))^[Nt] (slices.map array_copy)



/-! ## Access lemmas for the step functions -/

lemma getD_map_range {α : Type*} (f : ℕ → α) {n i : ℕ} (h : i < n) (d : α) :
    ((List.range n).map f).getD i d = f i := by
  rw [List.getD_eq_getElem _ _ (by simpa using h)]
  simp

lemma length_heat_step (nu : ℚ) (ut : List ℚ) :
    (heat_step nu ut).length = ut.length := by
  simp [heat_step]

lemma length_heat_parallel_rank_step (nu lg rg : ℚ) (ukt : List ℚ) :
    (heat_parallel_rank_step nu lg rg ukt).length = ukt.length := by
  simp [heat_parallel_rank_step]

lemma length_heat_parallel_step (nu : ℚ) (slices : List (List ℚ)) :
    (heat_parallel_step nu slices).length = slices.length := by
  simp [heat_parallel_step]

lemma getD_heat_step (nu : ℚ) (ut : List ℚ) {i : ℕ} (h : i < ut.length) :
    (heat_step nu ut).getD i 0 =
      if i = 0 then
        stencil nu (ut.getD (ut.length - 1) 0) (ut.getD 0 0) (ut.getD 1 0)
      else if i = ut.length - 1 then
        stencil nu (ut.getD (ut.length - 2) 0) (ut.getD (ut.length - 1) 0) (ut.getD 0 0)
      else
        stencil nu (ut.getD (i - 1) 0) (ut.getD i 0) (ut.getD (i + 1) 0) := by
  unfold heat_step
  exact getD_map_range _ h _

lemma getD_heat_parallel_rank_step (nu lg rg : ℚ) (ukt : List ℚ) {i : ℕ}
    (h : i < ukt.length) :
    (heat_parallel_rank_step nu lg rg ukt).getD i 0 =
      if i = 0 then
        stencil nu lg (ukt.getD 0 0) (ukt.getD 1 0)
      else if i = ukt.length - 1 then
        stencil nu (ukt.getD (ukt.length - 2) 0) (ukt.getD (ukt.length - 1) 0) rg
      else
        stencil nu (ukt.getD (i - 1) 0) (ukt.getD i 0) (ukt.getD (i + 1) 0) := by
  unfold heat_parallel_rank_step
  exact getD_map_range _ h _

lemma getD_heat_parallel_step (nu : ℚ) (slices : List (List ℚ)) {r : ℕ}
    (h : r < slices.length) :
    (heat_parallel_step nu slices).getD r [] =
      heat_parallel_rank_step nu
        ((slices.getD (left_proc slices.length r) []).getD
          ((slices.getD (left_proc slices.length r) []).length - 1) 0)
        ((slices.getD (right_proc slices.length r) []).getD 0 0)
        (slices.getD r []) := by
  unfold heat_parallel_step
  exact getD_map_range _ h _

/-! ## Claim C3: zero-step identity -/

/-- C3.  Zero-step identity: with `Nt = 0` both `heat_serial` and
`heat_parallel` return their input buffers unchanged (the kernels copy the
input into scratch, run the loop zero times, and copy the scratch straight
back). -/
theorem heat_zero_steps (u : List ℚ) (slices : List (List ℚ)) (dx dt : ℚ) :
    heat_serial u dx dt 0 = u ∧ heat_parallel slices dx dt 0 = slices := by
  constructor
  · rfl
  · simp only [heat_parallel, Function.iterate_zero, id_eq]
    exact List.map_id' slices

/-! ## Claim C5: concrete hot-cell scenarios -/

/-- C5.  Concrete hot-cell scenarios: with `dx = 1`, `dt = 1/4` (so
`nu = 1/4`), `Nx = 5`, input `[0, 0, 1, 0, 0]`, one step of `heat_serial`
gives `[0, 1/4, 1/2, 1/4, 0]` and two steps give
`[1/16, 1/4, 3/8, 1/4, 1/16]` (the spec's decimals `0.25, 0.5, 0.0625,
0.375` written as exact rationals, on which double arithmetic is exact). -/
theorem heat_serial_hot_cell :
    heat_serial [0, 0, 1, 0, 0] 1 (1/4) 1 = [0, 1/4, 1/2, 1/4, 0] ∧
    heat_serial [0, 0, 1, 0, 0] 1 (1/4) 2 = [1/16, 1/4, 3/8, 1/4, 1/16] := by
  constructor
  · norm_num [heat_serial, heat_step, stencil, array_copy, List.range_succ]
  · norm_num [heat_serial, heat_step, stencil, array_copy, List.range_succ,
      Function.iterate_succ_apply]


/-! ## Claim C4: constant steady state -/

lemma getD_replicate_of_lt (c : ℚ) {Nx j : ℕ} (hj : j < Nx) :
    (List.replicate Nx c).getD j 0 = c := by
  rw [List.getD_eq_getElem _ _ (by simpa using hj)]
  simp
lemma heat_step_replicate (nu c : ℚ) {Nx : ℕ} (hNx : 2 ≤ Nx) :
    heat_step nu (List.replicate Nx c) = List.replicate Nx c := by
  apply List.ext_getElem
  · simp [length_heat_step]
  · intro n h1 h2
    have hn : n < Nx := by simpa [length_heat_step] using h1
    rw [← List.getD_eq_getElem _ 0 h1, ← List.getD_eq_getElem _ 0 h2,
      getD_heat_step nu _ (by simpa using hn), getD_replicate_of_lt c hn]
    have hlen : (List.replicate Nx c).length = Nx := List.length_replicate _ _
    rw [hlen]
    by_cases h0 : n = 0
    · rw [if_pos h0, getD_replicate_of_lt c (show Nx - 1 < Nx by omega),
        getD_replicate_of_lt c (show 0 < Nx by omega),
        getD_replicate_of_lt c (show 1 < Nx by omega)]
      unfold stencil; ring
    · rw [if_neg h0]
      by_cases hlast : n = Nx - 1
      · rw [if_pos hlast, getD_replicate_of_lt c (show Nx - 2 < Nx by omega),
          getD_replicate_of_lt c (show Nx - 1 < Nx by omega),
          getD_replicate_of_lt c (show 0 < Nx by omega)]
        unfold stencil; ring
      · rw [if_neg hlast, getD_replicate_of_lt c (show n - 1 < Nx by omega),
          getD_replicate_of_lt c (show n + 1 < Nx by omega)]
        unfold stencil; ring

/-- C4.  Constant steady state: a buffer holding the constant `c` at every
index is an exact fixed point of `heat_serial` for every step count `Nt` and
all `dx`, `dt`, `Nx ≥ 2` (each update computes `c + nu*(c - 2*c + c) = c`;
every operand read lies in range, so no default is ever consulted). -/
theorem heat_serial_constant (c dx dt : ℚ) (Nx Nt : ℕ) (hNx : 2 ≤ Nx) :
    heat_serial (List.replicate Nx c) dx dt Nt = List.replicate Nx c := by
  unfold heat_serial array_copy
  exact Function.iterate_fixed (heat_step_replicate _ c hNx) Nt

/-- Witness for C4 at the spec scenario S4: `Nx = 8`, `c = 3`, `Nt = 100`. -/
theorem heat_serial_constant_witness :
    heat_serial (List.replicate 8 3) 1 (1/4) 100 = List.replicate 8 3 :=
  heat_serial_constant 3 1 (1/4) 8 100 (by norm_num)

/-! ## Claim C2: single-step stencil correctness of heat_serial -/

lemma heat_serial_one (u : List ℚ) (dx dt : ℚ) :
    heat_serial u dx dt 1 = heat_step (dt / (dx * dx)) u := rfl

/-- C2.  Single-step stencil correctness of `heat_serial`: for a buffer of
length `Nx ≥ 2` and one Euler step with `nu = dt/(dx*dx)`, every interior
index `i ∈ [1, Nx-2]` gets `u[i] + nu*(u[i-1] - 2*u[i] + u[i+1])` and the two
periodic edges get `u[0] + nu*(u[Nx-1] - 2*u[0] + u[1])` and
`u[Nx-1] + nu*(u[Nx-2] - 2*u[Nx-1] + u[0])`.  Every right-hand side reads the
pre-step buffer `u` only — in the embedding `heat_step` is a pure function of
the current buffer producing a fresh list, which is the reads-only-current /
writes-only-next discipline of heat.c lines 48–68. -/
theorem heat_serial_single_step (u : List ℚ) (dx dt : ℚ) (Nx : ℕ)
    (hlen : u.length = Nx) (hNx : 2 ≤ Nx) :
    (∀ i, 1 ≤ i → i ≤ Nx - 2 →
      (heat_serial u dx dt 1).getD i 0 =
        u.getD i 0 + dt / (dx * dx) *
          (u.getD (i - 1) 0 - 2 * u.getD i 0 + u.getD (i + 1) 0)) ∧
    (heat_serial u dx dt 1).getD 0 0 =
      u.getD 0 0 + dt / (dx * dx) *
        (u.getD (Nx - 1) 0 - 2 * u.getD 0 0 + u.getD 1 0) ∧
    (heat_serial u dx dt 1).getD (Nx - 1) 0 =
      u.getD (Nx - 1) 0 + dt / (dx * dx) *
        (u.getD (Nx - 2) 0 - 2 * u.getD (Nx - 1) 0 + u.getD 0 0) := by
  subst hlen
  rw [heat_serial_one]
  refine ⟨fun i h1 h2 => ?_, ?_, ?_⟩
  · rw [getD_heat_step _ _ (by omega), if_neg (by omega), if_neg (by omega)]
    rfl
  · rw [getD_heat_step _ _ (by omega), if_pos rfl]
    rfl
  · rw [getD_heat_step _ _ (by omega)]
    rw [if_neg (by omega), if_pos rfl]
    rfl

/-- Witness for C2: the buffer `[5, 7, 11, 13]` with `dx = 1`, `dt = 3`,
`Nx = 4`, instantiating the interior law at `i = 1` and both edge laws. -/
theorem heat_serial_single_step_witness :
    (heat_serial [5, 7, 11, 13] 1 3 1).getD 1 0 =
      ([5, 7, 11, 13] : List ℚ).getD 1 0 + 3 / (1 * 1) *
        (([5, 7, 11, 13] : List ℚ).getD 0 0 - 2 * ([5, 7, 11, 13] : List ℚ).getD 1 0 +
          ([5, 7, 11, 13] : List ℚ).getD 2 0) ∧
    (heat_serial [5, 7, 11, 13] 1 3 1).getD 0 0 =
      ([5, 7, 11, 13] : List ℚ).getD 0 0 + 3 / (1 * 1) *
        (([5, 7, 11, 13] : List ℚ).getD 3 0 - 2 * ([5, 7, 11, 13] : List ℚ).getD 0 0 +
          ([5, 7, 11, 13] : List ℚ).getD 1 0) ∧
    (heat_serial [5, 7, 11, 13] 1 3 1).getD 3 0 =
      ([5, 7, 11, 13] : List ℚ).getD 3 0 + 3 / (1 * 1) *
        (([5, 7, 11, 13] : List ℚ).getD 2 0 - 2 * ([5, 7, 11, 13] : List ℚ).getD 3 0 +
          ([5, 7, 11, 13] : List ℚ).getD 0 0) := by
  have h := heat_serial_single_step [5, 7, 11, 13] 1 3 4 rfl (by norm_num)
  exact ⟨h.1 1 (by norm_num) (by norm_num), h.2.1, h.2.2⟩

/-! ## Claim C1: serial/parallel equivalence

The global field is the rank-order concatenation (`List.flatten`) of the `P`
per-rank slices.  The key lemma shows that one synchronous parallel step
commutes with concatenation: every global index falls into one of five
regimes (global left edge, a rank-internal left edge, global right edge, a
rank-internal right edge, interior), and in each the serial update and the
parallel update are the same stencil applied to the same three operands. -/

lemma length_getD_uniform {Nx : ℕ} {slices : List (List ℚ)}
    (h : ∀ s ∈ slices, s.length = Nx) {r : ℕ} (hr : r < slices.length) :
    (slices.getD r []).length = Nx := by
  rw [List.getD_eq_getElem _ _ hr]
  exact h _ (List.getElem_mem _)

lemma length_flatten_uniform {Nx : ℕ} :
    ∀ {slices : List (List ℚ)}, (∀ s ∈ slices, s.length = Nx) →
      slices.flatten.length = slices.length * Nx := by
  intro slices
  induction slices with
  | nil => intro _; simp
  | cons s ss ih =>
    intro h
    have hs : s.length = Nx := h s (List.mem_cons_self _ _)
    have hss := ih (fun t ht => h t (List.mem_cons_of_mem _ ht))
    rw [List.flatten_cons, List.length_append, hs, hss, List.length_cons, Nat.succ_mul]
    ring

lemma getD_flatten_uniform {Nx : ℕ} :
    ∀ {slices : List (List ℚ)}, (∀ s ∈ slices, s.length = Nx) →
      ∀ {r i : ℕ}, r < slices.length → i < Nx →
        slices.flatten.getD (r * Nx + i) 0 = (slices.getD r []).getD i 0 := by
  intro slices
  induction slices with
  | nil => intro _ r i hr _; exact absurd hr (by simp)
  | cons s ss ih =>
    intro h r i hr hi
    have hs : s.length = Nx := h s (List.mem_cons_self _ _)
    cases r with
    | zero =>
      rw [List.flatten_cons, Nat.zero_mul, Nat.zero_add,
        List.getD_append _ _ _ _ (show i < s.length by omega), List.getD_cons_zero]
    | succ r' =>
      have hmul : (r' + 1) * Nx = r' * Nx + Nx := Nat.succ_mul r' Nx
      rw [List.flatten_cons,
        List.getD_append_right _ _ _ _ (show s.length ≤ (r' + 1) * Nx + i by omega),
        hs, List.getD_cons_succ]
      rw [show (r' + 1) * Nx + i - Nx = r' * Nx + i by omega]
      exact ih (fun t ht => h t (List.mem_cons_of_mem _ ht)) (by simpa using hr) hi

lemma heat_parallel_step_uniform {Nx : ℕ} (nu : ℚ) {slices : List (List ℚ)}
    (h : ∀ s ∈ slices, s.length = Nx) :
    ∀ s ∈ heat_parallel_step nu slices, s.length = Nx := by
  intro s hs
  unfold heat_parallel_step at hs
  rw [List.mem_map] at hs
  obtain ⟨r, hr, rfl⟩ := hs
  rw [List.mem_range] at hr
  rw [length_heat_parallel_rank_step]
  exact length_getD_uniform h hr

lemma mul_add_lt {r P i Nx : ℕ} (hr : r < P) (hi : i < Nx) :
    r * Nx + i < P * Nx := by
  have h1 : (r + 1) * Nx ≤ P * Nx := Nat.mul_le_mul_right _ hr
  have h2 : (r + 1) * Nx = r * Nx + Nx := Nat.succ_mul r Nx
  omega

lemma heat_parallel_step_flatten {Nx : ℕ} (nu : ℚ) (slices : List (List ℚ))
    (hP : 1 ≤ slices.length) (hNx : 2 ≤ Nx)
    (h : ∀ s ∈ slices, s.length = Nx) :
    (heat_parallel_step nu slices).flatten = heat_step nu slices.flatten := by
  have hout : ∀ s ∈ heat_parallel_step nu slices, s.length = Nx :=
    heat_parallel_step_uniform nu h
  have hlenL : (heat_parallel_step nu slices).flatten.length = slices.length * Nx := by
    rw [length_flatten_uniform hout, length_heat_parallel_step]
  have hlenR : (heat_step nu slices.flatten).length = slices.length * Nx := by
    rw [length_heat_step, length_flatten_uniform h]
  refine List.ext_getElem (by rw [hlenL, hlenR]) ?_
  intro g hg1 hg2
  rw [← List.getD_eq_getElem _ 0 hg1, ← List.getD_eq_getElem _ 0 hg2]
  have hg : g < slices.length * Nx := by rw [← hlenL]; exact hg1
  obtain ⟨r, i, hr, hi, rfl⟩ : ∃ r i, r < slices.length ∧ i < Nx ∧ g = r * Nx + i := by
    refine ⟨g / Nx, g % Nx, ?_, Nat.mod_lt _ (by omega), ?_⟩
    · exact Nat.div_lt_of_lt_mul (by rwa [Nat.mul_comm] at hg)
    · rw [Nat.mul_comm (g / Nx) Nx]
      exact (Nat.div_add_mod g Nx).symm
  have hlp : left_proc slices.length r < slices.length := by
    unfold left_proc; exact Nat.mod_lt _ (by omega)
  have hrp : right_proc slices.length r < slices.length := by
    unfold right_proc; exact Nat.mod_lt _ (by omega)
  have hb1 : Nx ≤ slices.length * Nx := by
    have := Nat.mul_le_mul_right Nx hP
    omega
  have hsub : (slices.length - 1) * Nx = slices.length * Nx - Nx := by
    rw [Nat.sub_mul, Nat.one_mul]
  rw [getD_flatten_uniform hout
      (show r < (heat_parallel_step nu slices).length by
        rw [length_heat_parallel_step]; exact hr) hi,
    getD_heat_parallel_step nu slices hr,
    getD_heat_parallel_rank_step _ _ _ _
      (show i < (slices.getD r []).length by rw [length_getD_uniform h hr]; exact hi),
    length_getD_uniform h hr, length_getD_uniform h hlp,
    getD_heat_step nu slices.flatten
      (show r * Nx + i < slices.flatten.length by
        rw [length_flatten_uniform h]; exact mul_add_lt hr hi),
    length_flatten_uniform h]
  by_cases hi0 : i = 0
  · subst hi0
    rw [if_pos rfl]
    by_cases hr0 : r = 0
    · subst hr0
      rw [if_pos (show 0 * Nx + 0 = 0 by omega)]
      have hlp0 : left_proc slices.length 0 = slices.length - 1 := by
        unfold left_proc
        rw [Nat.zero_add]
        exact Nat.mod_eq_of_lt (by omega)
      rw [hlp0,
        show slices.length * Nx - 1 = (slices.length - 1) * Nx + (Nx - 1) by omega,
        getD_flatten_uniform h (show slices.length - 1 < slices.length by omega)
          (show Nx - 1 < Nx by omega)]
      have f00 : slices.flatten.getD 0 0 = (slices.getD 0 []).getD 0 0 := by
        have := getD_flatten_uniform h (show 0 < slices.length by omega)
          (show 0 < Nx by omega)
        simpa using this
      have f01 : slices.flatten.getD 1 0 = (slices.getD 0 []).getD 1 0 := by
        have := getD_flatten_uniform h (show 0 < slices.length by omega)
          (show 1 < Nx by omega)
        simpa using this
      rw [f00, f01]
    · obtain ⟨r', rfl⟩ : ∃ r', r = r' + 1 := ⟨r - 1, by omega⟩
      have hmul : (r' + 1) * Nx = r' * Nx + Nx := Nat.succ_mul r' Nx
      have hmono : (r' + 1) * Nx ≤ (slices.length - 1) * Nx :=
        Nat.mul_le_mul_right _ (by omega)
      rw [if_neg (show ¬((r' + 1) * Nx + 0 = 0) by omega),
        if_neg (show ¬((r' + 1) * Nx + 0 = slices.length * Nx - 1) by omega),
        show (r' + 1) * Nx + 0 - 1 = r' * Nx + (Nx - 1) by omega,
        getD_flatten_uniform h (show r' < slices.length by omega)
          (show Nx - 1 < Nx by omega),
        getD_flatten_uniform h hr (show 0 < Nx by omega),
        show (r' + 1) * Nx + 0 + 1 = (r' + 1) * Nx + 1 by omega,
        getD_flatten_uniform h hr (show 1 < Nx by omega)]
      have hlps : left_proc slices.length (r' + 1) = r' := by
        unfold left_proc
        rw [show r' + 1 + slices.length - 1 = slices.length + r' by omega,
          Nat.add_mod_left]
        exact Nat.mod_eq_of_lt (by omega)
      rw [hlps]
  · rw [if_neg hi0]
    by_cases hilast : i = Nx - 1
    · subst hilast
      rw [if_pos rfl]
      by_cases hrlast : r = slices.length - 1
      · subst hrlast
        rw [if_neg (show ¬((slices.length - 1) * Nx + (Nx - 1) = 0) by omega),
          if_pos (show (slices.length - 1) * Nx + (Nx - 1) = slices.length * Nx - 1 by
            omega),
          show slices.length * Nx - 2 = (slices.length - 1) * Nx + (Nx - 2) by omega,
          getD_flatten_uniform h (show slices.length - 1 < slices.length by omega)
            (show Nx - 2 < Nx by omega),
          show slices.length * Nx - 1 = (slices.length - 1) * Nx + (Nx - 1) by omega,
          getD_flatten_uniform h (show slices.length - 1 < slices.length by omega)
            (show Nx - 1 < Nx by omega)]
        have f00 : slices.flatten.getD 0 0 = (slices.getD 0 []).getD 0 0 := by
          have := getD_flatten_uniform h (show 0 < slices.length by omega)
            (show 0 < Nx by omega)
          simpa using this
        rw [f00]
        have hrps : right_proc slices.length (slices.length - 1) = 0 := by
          unfold right_proc
          rw [show slices.length - 1 + 1 = slices.length by omega, Nat.mod_self]
        rw [hrps]
      · have hmul : (r + 1) * Nx = r * Nx + Nx := Nat.succ_mul r Nx
        have hmono : (r + 1) * Nx ≤ (slices.length - 1) * Nx :=
          Nat.mul_le_mul_right _ (by omega)
        rw [if_neg (show ¬(r * Nx + (Nx - 1) = 0) by omega),
          if_neg (show ¬(r * Nx + (Nx - 1) = slices.length * Nx - 1) by omega),
          show r * Nx + (Nx - 1) - 1 = r * Nx + (Nx - 2) by omega,
          getD_flatten_uniform h hr (show Nx - 2 < Nx by omega),
          getD_flatten_uniform h hr (show Nx - 1 < Nx by omega),
          show r * Nx + (Nx - 1) + 1 = (r + 1) * Nx + 0 by omega,
          getD_flatten_uniform h (show r + 1 < slices.length by omega)
            (show 0 < Nx by omega)]
        have hrps : right_proc slices.length r = r + 1 := by
          unfold right_proc
          exact Nat.mod_eq_of_lt (by omega)
        rw [hrps]
    · rw [if_neg hilast]
      have hmul : (r + 1) * Nx = r * Nx + Nx := Nat.succ_mul r Nx
      have hmono : (r + 1) * Nx ≤ slices.length * Nx := Nat.mul_le_mul_right _ hr
      rw [if_neg (show ¬(r * Nx + i = 0) by omega),
        if_neg (show ¬(r * Nx + i = slices.length * Nx - 1) by omega),
        show r * Nx + i - 1 = r * Nx + (i - 1) by omega,
        getD_flatten_uniform h hr (show i - 1 < Nx by omega),
        getD_flatten_uniform h hr hi,
        show r * Nx + i + 1 = r * Nx + (i + 1) by omega,
        getD_flatten_uniform h hr (show i + 1 < Nx by omega)]

lemma heat_parallel_iterate_flatten {Nx : ℕ} (nu : ℚ) (Nt : ℕ) :
    ∀ (slices : List (List ℚ)), 1 ≤ slices.length → 2 ≤ Nx →
      (∀ s ∈ slices, s.length = Nx) →
      ((heat_parallel_step nu)^[Nt] slices).flatten =
        (heat_step nu)^[Nt] slices.flatten := by
  induction Nt with
  | zero => intro slices _ _ _; rfl
  | succ n ih =>
    intro slices hP hNx h
    rw [Function.iterate_succ_apply, Function.iterate_succ_apply,
      ← heat_parallel_step_flatten nu slices hP hNx h]
    exact ih _ (by rw [length_heat_parallel_step]; exact hP) hNx
      (heat_parallel_step_uniform nu h)

lemma array_copy_map (slices : List (List ℚ)) : slices.map array_copy = slices :=
  List.map_id' slices

/-- C1.  Serial/parallel equivalence: for every global initial field split
into `P ≥ 1` contiguous per-rank slices of common length `Nx ≥ 2`, running
`heat_parallel` on the ring of `P` processes and concatenating the resulting
slices in rank order yields exactly the field produced by `heat_serial` on
the concatenated input with the same `dx`, `dt`, `Nt`.  Each global point is
updated by the very same stencil expression on the very same three operands
in both kernels (the ghost values are exactly the neighbouring slices' edge
entries), so the equality is exact — no reordering or reduction occurs. -/
theorem heat_parallel_serial_equiv (P Nx : ℕ) (hP : 1 ≤ P) (hNx : 2 ≤ Nx)
    (slices : List (List ℚ)) (hlen : slices.length = P)
    (hsl : ∀ s ∈ slices, s.length = Nx) (dx dt : ℚ) (Nt : ℕ) :
    (heat_parallel slices dx dt Nt).flatten = heat_serial slices.flatten dx dt Nt := by
  unfold heat_parallel heat_serial
  rw [array_copy_map]
  exact heat_parallel_iterate_flatten _ Nt slices (by omega) hNx hsl

/-- Witness for C1: a ring of `P = 2` ranks with slices `[1, 2]` and `[3, 4]`
(`Nx = 2`), `dx = 1`, `dt = 1/4`, `Nt = 3`. -/
theorem heat_parallel_serial_equiv_witness :
    (heat_parallel [[1, 2], [3, 4]] 1 (1/4) 3).flatten =
      heat_serial ([[1, 2], [3, 4]] : List (List ℚ)).flatten 1 (1/4) 3 :=
  heat_parallel_serial_equiv 2 2 (by norm_num) (by norm_num) [[1, 2], [3, 4]] rfl
    (by simp) 1 (1/4) 3

end Heat
